import Mathlib

/-!
Verification of the RP2040 PWM driver (`chips/rp2040/src/pwm.rs`).

The driver is shallowly embedded.  Machine integers are modelled as `Nat`:
`usize` on this 32-bit Cortex-M0+ chip is 32 bits wide, so wrapping
arithmetic is taken modulo `2^32` and the `as u16` / `as u8` casts truncate
modulo `2^16` / `2^8` where they can matter.  The `f32` arithmetic inside
`compute_top_int_frac` is modelled exactly: each value that occurs there is
a finite nonnegative binary32 number, the two `usize as f32` conversions and
the division are correctly rounded (round to nearest, ties to even), and the
remaining operations (`divider as u8`, the subtraction `divider - int as f32`
and the multiplication by `16.0`) are exact on the values that can reach
them, as argued in the comments at the definitions below.
-/

/-- Round to nearest integer with ties to even: the nearest integer to
`n / d` (for `d > 0`), rounding to the even neighbour on a tie. -/
def rne (n d : Nat) : Nat :=
  let q := n / d
  let r := n % d
  if 2 * r < d then q
  else if d < 2 * r then q + 1
  else if q % 2 = 0 then q else q + 1

/-- Fuelled floor-log2: `log2Aux k n` is `⌊log₂ n⌋` whenever `1 ≤ n ≤ k`.
A fuelled definition is used so that it reduces by structural recursion. -/
def log2Aux : Nat → Nat → Nat
  | 0, _ => 0
  | k + 1, n => if 2 ≤ n then log2Aux k (n / 2) + 1 else 0

/-- Floor of the base-2 logarithm (with junk value 0 at 0). -/
def flog2 (n : Nat) : Nat := log2Aux n n

/-- The value of a natural number converted to IEEE-754 binary32 with the
default rounding (round to nearest, ties to even).  Every natural below
`2^128` converts to a finite float with an integral value, so the result is
again returned as a `Nat`.  Numbers below `2^24` are exactly representable;
a number `n` with `2^e ≤ n < 2^(e+1)`, `e ≥ 24`, is rounded to the nearest
multiple of the ulp `2^(e-23)` (ties to even, which coincides with
even-significand tie-breaking because the significand is `n / 2^(e-23)`). -/
def natToF32 (n : Nat) : Nat :=
  if n < 2 ^ 24 then n
  else rne n (2 ^ (flog2 n - 23)) * 2 ^ (flog2 n - 23)

/-- IEEE-754 binary32 division `T / F` of two exactly representable natural
values, for `1 ≤ F ≤ T`: the correctly rounded quotient is returned as a
significand/exponent pair `(s, e)` whose value is `s * 2^(e-23)` with
`2^23 ≤ s < 2^24` and `e = ⌊log₂ (T/F)⌋` (or `e` one larger when rounding
carries into the next binade, in which case `s = 2^23`).  The significand is
the quotient scaled into `[2^23, 2^24)` and rounded to nearest, ties to
even — exactly what a correctly rounded binary32 division produces for
operands and results in the normal range. -/
def fdivSig (T F : Nat) : Nat × Nat :=
  if flog2 (T / F) ≤ 23 then
    if rne (T * 2 ^ (23 - flog2 (T / F))) F = 2 ^ 24 then (2 ^ 23, flog2 (T / F) + 1)
    else (rne (T * 2 ^ (23 - flog2 (T / F))) F, flog2 (T / F))
  else
    if rne T (F * 2 ^ (flog2 (T / F) - 23)) = 2 ^ 24 then (2 ^ 23, flog2 (T / F) + 1)
    else (rne T (F * 2 ^ (flog2 (T / F) - 23)), flog2 (T / F))

/-- `Pwm::get_maximum_duty_cycle`: `u16::MAX as usize + 1`. -/
def get_maximum_duty_cycle : Nat := 65535 + 1

/-- `Pwm::compute_top_int_frac`, with the system clock frequency (the result
of `get_maximum_frequency_hz`, a `u32` read from the clocks collaborator)
passed explicitly as `max_freq_hz`.

The high-frequency branch is pure integer arithmetic; `- 1` is usize
wrapping subtraction and `as u16` truncates, modelled by the `% 2 ^ 32`
/ `% 2 ^ 16` reductions.

In the low-frequency branch the source computes
`divider = threshold as f32 / selected as f32`, rejects `divider >= 256.0`,
and then takes `int = divider as u8` and
`frac = ((divider - int as f32) * 16.0) as u8`.  This is modelled as
follows.  If `selected_freq_hz = 0` the division yields NaN (when the
threshold is also 0: `NaN >= 256.0` is false, and both NaN casts give 0) or
`+inf` (which is `>= 256.0`, an error).  Otherwise both operands convert by
`natToF32` and the division is `fdivSig`, giving `divider = s * 2^(e-23)`;
`divider >= 256.0` is exactly `8 ≤ e`; for `e ≤ 7` the truncating casts and
the exact subtraction/multiplication give
`int = ⌊divider⌋ = s / 2^(23-e)` and
`frac = ⌊16 * divider⌋ - 16 * int = s / 2^(19-e) - 16 * (s / 2^(23-e))`
(the subtraction `divider - int as f32` is exact because the result is a
multiple of the ulp `2^(e-23)` below 1, and `* 16.0` is an exact power-of-2
scaling; both intermediate casts stay inside `u8` range, so the saturating
behaviour of `as u8` never engages).

`computeDivParts` is that divider extraction of the low-frequency branch
(operands already converted to exactly represented binary32 values);
`compute_top_int_frac` below is the full function. -/
def computeDivParts (T F : Nat) : Option (Nat × Nat × Nat) :=
  if 8 ≤ (fdivSig T F).2 then none
  else
    some (65535, (fdivSig T F).1 / 2 ^ (23 - (fdivSig T F).2),
      (fdivSig T F).1 / 2 ^ (19 - (fdivSig T F).2) -
        16 * ((fdivSig T F).1 / 2 ^ (23 - (fdivSig T F).2)))

/-- `Pwm::compute_top_int_frac` itself; see the comment at
`computeDivParts`. -/
def compute_top_int_frac (max_freq_hz selected_freq_hz : Nat) :
    Option (Nat × Nat × Nat) :=
  if max_freq_hz / get_maximum_duty_cycle < selected_freq_hz then
    some ((max_freq_hz / selected_freq_hz + (2 ^ 32 - 1)) % 2 ^ 32 % 2 ^ 16, 1, 0)
  else if selected_freq_hz = 0 then
    (if max_freq_hz / get_maximum_duty_cycle = 0 then some (65535, 0, 0) else none)
  else
    computeDivParts (natToF32 (max_freq_hz / get_maximum_duty_cycle))
      (natToF32 selected_freq_hz)

/-- The compare-value computation performed inside `start_pwm_pin`: for
`duty_cycle == max_duty_cycle` it demands `top != u16::MAX` and answers
`top + 1` (a `u16` addition), otherwise it computes
`((top as usize + 1) * duty_cycle / max_duty_cycle) as u16` (usize
arithmetic, truncated to `u16`). -/
def solve_compare (top duty_cycle : Nat) : Option Nat :=
  if duty_cycle = get_maximum_duty_cycle then
    if top = 65535 then none
    else some ((top + 1) % 2 ^ 16)
  else some ((top + 1) * duty_cycle % 2 ^ 32 / get_maximum_duty_cycle % 2 ^ 16)

/-- Identifier for a channel pin (`ChannelPin` in the source). -/
inductive ChannelPin
  | A
  | B
deriving DecidableEq, Repr

/-- Fractional clock divider running mode (`DivMode` in the source). -/
inductive DivMode
  | FreeRunning
  | High
  | Rising
  | Falling
deriving DecidableEq, Repr

/-- `impl From<RPGpio> for ChannelNumber`: `gpio as u8 >> 1 & 7`, the
channel ordinal of a physical pin.  `RPGpio` itself lives in the gpio
module of this chip crate; modelled from the spec, its variants `GPIO0` …
`GPIO29` are the physical pin indices `0 ≤ pin < 30` used here. -/
def channel_number_from_gpio (pin : Nat) : Nat := pin >>> 1 &&& 7

/-- `impl From<RPGpio> for ChannelPin`: `gpio as u8 & 1` (0 ⟹ A, 1 ⟹ B). -/
def channel_pin_from_gpio (pin : Nat) : ChannelPin :=
  if pin &&& 1 = 0 then ChannelPin.A else ChannelPin.B

/-- The error kind surfaced by `start`: `ErrorCode::INVAL`. -/
inductive ErrorCode
  | INVAL
deriving DecidableEq, Repr

/-- One PWM channel's register state: the CSR bit fields, the divider
register fields, the counter, the two compare values and the top value. -/
structure ChannelState where
  en : Bool
  ph_correct : Bool
  a_inv : Bool
  b_inv : Bool
  divmode : DivMode
  div_int : Nat
  div_frac : Nat
  ctr : Nat
  cc_a : Nat
  cc_b : Nat
  top : Nat
deriving DecidableEq, Repr

/-- The register bank of the peripheral's eight channels (the interrupt
registers are modelled separately in `IrqState`; no driver operation touches
both the channel registers and the interrupt registers). -/
structure PwmState where
  channels : Fin 8 → ChannelState

/-- A register write to a channel, used to record the order of the writes
that `start_pwm_pin` issues: the TOP register, the DIV register (written
twice, once for the INT field and once for the FRAC field), the CC register
of the given sub-pin, and the EN bit of the CSR register. -/
inductive RegWrite
  | top (n : Fin 8)
  | div (n : Fin 8)
  | cc (n : Fin 8) (pin : ChannelPin)
  | en (n : Fin 8)
deriving DecidableEq, Repr

/-- `PwmChannelConfiguration`: the staging value object. -/
structure PwmChannelConfiguration where
  en : Bool
  ph_correct : Bool
  a_inv : Bool
  b_inv : Bool
  divmode : DivMode
  int : Nat
  frac : Nat
  cc_a : Nat
  cc_b : Nat
  top : Nat
deriving DecidableEq, Repr

namespace PwmChannelConfiguration

/-- `PwmChannelConfiguration::default_config`. -/
def default_config : PwmChannelConfiguration :=
  { en := false
    ph_correct := false
    a_inv := false
    b_inv := false
    divmode := DivMode.FreeRunning
    int := 1
    frac := 0
    cc_a := 0
    cc_b := 0
    top := 65535 }

/-- `PwmChannelConfiguration::set_divider_int_frac`: ignored (a no-op)
when `int == 0 || frac > 15`. -/
def set_divider_int_frac (c : PwmChannelConfiguration) (int frac : Nat) :
    PwmChannelConfiguration :=
  if int = 0 ∨ 15 < frac then c else { c with int := int, frac := frac }

end PwmChannelConfiguration

namespace Pwm

/-- Modify one channel's registers, leaving the others untouched. -/
def update_channel (s : PwmState) (n : Fin 8) (f : ChannelState → ChannelState) :
    PwmState :=
  { channels := Function.update s.channels n (f (s.channels n)) }

/-- `Pwm::set_enabled`. -/
def set_enabled (s : PwmState) (n : Fin 8) (enable : Bool) : PwmState :=
  update_channel s n fun c => { c with en := enable }

/-- `Pwm::set_mask_enabled`: the EN register aliases the per-channel CSR
enable bits; the source reads it and ORs the mask in, so channel `i` ends
up enabled iff it was enabled or bit `i` of the mask is set. -/
def set_mask_enabled (s : PwmState) (mask : Nat) : PwmState :=
  { channels := fun i => { s.channels i with en := (s.channels i).en || mask.testBit i.val } }

/-- `Pwm::set_ph_correct`. -/
def set_ph_correct (s : PwmState) (n : Fin 8) (b : Bool) : PwmState :=
  update_channel s n fun c => { c with ph_correct := b }

/-- `Pwm::set_invert_polarity` (two CSR writes: A_INV, then B_INV). -/
def set_invert_polarity (s : PwmState) (n : Fin 8) (ai bi : Bool) : PwmState :=
  update_channel (update_channel s n fun c => { c with a_inv := ai }) n
    fun c => { c with b_inv := bi }

/-- `Pwm::set_div_mode`. -/
def set_div_mode (s : PwmState) (n : Fin 8) (d : DivMode) : PwmState :=
  update_channel s n fun c => { c with divmode := d }

/-- `Pwm::set_divider_int_frac`: does nothing when `int == 0 || frac > 15`;
otherwise writes the DIV register twice (INT field, then FRAC field).  The
returned list records the issued register writes. -/
def set_divider_int_frac (s : PwmState) (n : Fin 8) (int frac : Nat) :
    PwmState × List RegWrite :=
  if int = 0 ∨ 15 < frac then (s, [])
  else
    (update_channel (update_channel s n fun c => { c with div_int := int }) n
        fun c => { c with div_frac := frac },
      [RegWrite.div n, RegWrite.div n])

/-- `Pwm::set_compare_value_a`. -/
def set_compare_value_a (s : PwmState) (n : Fin 8) (v : Nat) : PwmState :=
  update_channel s n fun c => { c with cc_a := v }

/-- `Pwm::set_compare_value_b`. -/
def set_compare_value_b (s : PwmState) (n : Fin 8) (v : Nat) : PwmState :=
  update_channel s n fun c => { c with cc_b := v }

/-- `Pwm::set_compare_values_a_and_b`. -/
def set_compare_values_a_and_b (s : PwmState) (n : Fin 8) (va vb : Nat) : PwmState :=
  set_compare_value_b (set_compare_value_a s n va) n vb

/-- `Pwm::set_top`. -/
def set_top (s : PwmState) (n : Fin 8) (v : Nat) : PwmState :=
  update_channel s n fun c => { c with top := v }

/-- `Pwm::get_counter`. -/
def get_counter (s : PwmState) (n : Fin 8) : Nat := (s.channels n).ctr

/-- `Pwm::set_counter`. -/
def set_counter (s : PwmState) (n : Fin 8) (v : Nat) : PwmState :=
  update_channel s n fun c => { c with ctr := v }

/-- `Pwm::advance_count` / `Pwm::retard_count`: write a self-clearing CSR
bit and busy-wait for the hardware to clear it.  Modelled from the spec:
the software-visible net effect is confined to the counter, whose new value
(one count shifted, hardware-determined while running) is taken as a
parameter. -/
def phase_shift (s : PwmState) (n : Fin 8) (newCtr : Nat) : PwmState :=
  update_channel s n fun c => { c with ctr := newCtr }

/-- `Pwm::configure_channel`: applies all eight parameters, in the source's
order. -/
def configure_channel (s : PwmState) (n : Fin 8) (config : PwmChannelConfiguration) :
    PwmState :=
  let s1 := set_ph_correct s n config.ph_correct
  let s2 := set_invert_polarity s1 n config.a_inv config.b_inv
  let s3 := set_div_mode s2 n config.divmode
  let s4 := (set_divider_int_frac s3 n config.int config.frac).1
  let s5 := set_compare_value_a s4 n config.cc_a
  let s6 := set_compare_value_b s5 n config.cc_b
  let s7 := set_top s6 n config.top
  set_enabled s7 n config.en

/-- `Pwm::init`: configures every channel with the default configuration and
zeroes its counter (the final write of 0 to the raw-interrupt register
touches only the interrupt state, which is modelled separately). -/
def init (s : PwmState) : PwmState :=
  (List.finRange 8).foldl
    (fun st n => set_counter (configure_channel st n PwmChannelConfiguration.default_config) n 0)
    s

/-- `Pwm::start_pwm_pin`: plans `(top, int, frac)` and the compare value,
and only then issues the register writes — TOP, then the DIV register (via
`set_divider_int_frac`), then the CC register of the sub-pin, then the EN
bit.  Both error returns happen before any write.  The middle component of
the result records the issued channel-register writes in order; the last
component is `some ErrorCode.INVAL` exactly when the source returns
`Err(ErrorCode::INVAL)`. -/
def start_pwm_pin (s : PwmState) (channel_number : Fin 8) (channel_pin : ChannelPin)
    (max_freq_hz frequency_hz duty_cycle : Nat) :
    PwmState × List RegWrite × Option ErrorCode :=
  match compute_top_int_frac max_freq_hz frequency_hz with
  | none => (s, [], some ErrorCode.INVAL)
  | some (top, int, frac) =>
    match solve_compare top duty_cycle with
    | none => (s, [], some ErrorCode.INVAL)
    | some compare_value =>
      let s1 := set_top s channel_number top
      let dv := set_divider_int_frac s1 channel_number int frac
      let s3 :=
        match channel_pin with
        | ChannelPin.A => set_compare_value_a dv.1 channel_number compare_value
        | ChannelPin.B => set_compare_value_b dv.1 channel_number compare_value
      let s4 := set_enabled s3 channel_number true
      (s4,
        RegWrite.top channel_number ::
          (dv.2 ++ [RegWrite.cc channel_number channel_pin, RegWrite.en channel_number]),
        none)

/-- `Pwm::stop_pwm_channel`: disable the channel; never fails. -/
def stop_pwm_channel (s : PwmState) (n : Fin 8) : PwmState × Option ErrorCode :=
  (set_enabled s n false, none)

end Pwm

/-- The channel-register operations of the driver, for stating reachability
invariants: every public operation of the source that can write a channel
register appears here. -/
inductive PwmOp
  | set_enabled (n : Fin 8) (b : Bool)
  | set_mask_enabled (mask : Nat)
  | set_ph_correct (n : Fin 8) (b : Bool)
  | set_invert_polarity (n : Fin 8) (ai bi : Bool)
  | set_div_mode (n : Fin 8) (d : DivMode)
  | set_divider_int_frac (n : Fin 8) (int frac : Nat)
  | set_compare_value_a (n : Fin 8) (v : Nat)
  | set_compare_value_b (n : Fin 8) (v : Nat)
  | set_compare_values_a_and_b (n : Fin 8) (va vb : Nat)
  | set_top (n : Fin 8) (v : Nat)
  | set_counter (n : Fin 8) (v : Nat)
  | phase_shift (n : Fin 8) (newCtr : Nat)
  | configure_channel (n : Fin 8) (config : PwmChannelConfiguration)
  | start (n : Fin 8) (pin : ChannelPin) (max_freq freq duty : Nat)
  | stop (n : Fin 8)

/-- Apply one driver operation to the channel-register state. -/
def applyOp (s : PwmState) : PwmOp → PwmState
  | PwmOp.set_enabled n b => Pwm.set_enabled s n b
  | PwmOp.set_mask_enabled m => Pwm.set_mask_enabled s m
  | PwmOp.set_ph_correct n b => Pwm.set_ph_correct s n b
  | PwmOp.set_invert_polarity n ai bi => Pwm.set_invert_polarity s n ai bi
  | PwmOp.set_div_mode n d => Pwm.set_div_mode s n d
  | PwmOp.set_divider_int_frac n i f => (Pwm.set_divider_int_frac s n i f).1
  | PwmOp.set_compare_value_a n v => Pwm.set_compare_value_a s n v
  | PwmOp.set_compare_value_b n v => Pwm.set_compare_value_b s n v
  | PwmOp.set_compare_values_a_and_b n va vb => Pwm.set_compare_values_a_and_b s n va vb
  | PwmOp.set_top n v => Pwm.set_top s n v
  | PwmOp.set_counter n v => Pwm.set_counter s n v
  | PwmOp.phase_shift n v => Pwm.phase_shift s n v
  | PwmOp.configure_channel n config => Pwm.configure_channel s n config
  | PwmOp.start n pin mf f d => (Pwm.start_pwm_pin s n pin mf f d).1
  | PwmOp.stop n => (Pwm.stop_pwm_channel s n).1

/-- Apply a sequence of driver operations. -/
def applyOps (s : PwmState) (ops : List PwmOp) : PwmState :=
  ops.foldl applyOp s

/-- A sample channel-register state (hardware-reset-like values), used as a
concrete state in witnesses. -/
def sampleChannel : ChannelState :=
  { en := false
    ph_correct := false
    a_inv := false
    b_inv := false
    divmode := DivMode.FreeRunning
    div_int := 1
    div_frac := 0
    ctr := 0
    cc_a := 0
    cc_b := 0
    top := 65535 }

/-- A sample register-bank state for witnesses. -/
def sampleState : PwmState := { channels := fun _ => sampleChannel }

/-- The peripheral-wide interrupt registers (each holds 8 bits, one per
channel) and the single registered handler slot.  `intr` is the raw latched
interrupt state behind the write-one-to-clear INTR register; `inte` is the
interrupt enable mask; `intf` is the interrupt force mask.  `handler`
records whether an interrupt handler object is registered (its `fired`
calls are observed through the event trace of `handle_interrupt`). -/
structure IrqState where
  intr : Nat
  inte : Nat
  intf : Nat
  handler : Bool
deriving DecidableEq, Repr

/-- Observable events of `handle_interrupt`, in issue order: a
`handler.fired(c)` callback, the write-one-to-clear of channel `c`'s
latched bit, and the clearing of channel `c`'s force bit. -/
inductive IrqEvent
  | fired (c : Nat)
  | clear_intr (c : Nat)
  | unforce (c : Nat)
deriving DecidableEq, Repr

namespace Pwm

/-- `Pwm::get_interrupt_status`: `(ints.read(CH) & 1 << channel) != 0`.
Modelled from the spec: the read-only INTS register is the interrupt state
after masking and forcing, `(INTR & INTE) | INTF`. -/
def get_interrupt_status (st : IrqState) (c : Nat) : Bool :=
  ((st.intr &&& st.inte ||| st.intf) &&& (1 <<< c)) != 0

/-- `Pwm::enable_interrupt`: read-modify-write of the INTE mask. -/
def enable_interrupt (st : IrqState) (c : Nat) : IrqState :=
  { st with inte := (st.inte ||| (1 <<< c)) &&& 255 }

/-- `Pwm::disable_interrupt`. -/
def disable_interrupt (st : IrqState) (c : Nat) : IrqState :=
  { st with inte := (st.inte &&& ((2 ^ 32 - 1) ^^^ (1 <<< c))) &&& 255 }

/-- `Pwm::clear_interrupt`: writing bit `c` to the write-only INTR register
clears the latched bit of channel `c` (modelled from the spec: INTR is the
per-channel write-one-to-clear register). -/
def clear_interrupt (st : IrqState) (c : Nat) : IrqState :=
  { st with intr := st.intr &&& ((2 ^ 32 - 1) ^^^ (1 <<< c)) }

/-- `Pwm::force_interrupt`: read-modify-write ORing bit `c` into INTF. -/
def force_interrupt (st : IrqState) (c : Nat) : IrqState :=
  { st with intf := (st.intf ||| (1 <<< c)) &&& 255 }

/-- `Pwm::unforce_interrupt`: clears bit `c` of INTF. -/
def unforce_interrupt (st : IrqState) (c : Nat) : IrqState :=
  { st with intf := (st.intf &&& ((2 ^ 32 - 1) ^^^ (1 <<< c))) &&& 255 }

/-- One iteration of the `handle_interrupt` loop at channel `c`: if the
status bit is set, fire the handler (when registered), then clear the
latched bit, then unforce, accumulating the events in order. -/
def handle_step (acc : IrqState × List IrqEvent) (c : Nat) : IrqState × List IrqEvent :=
  if get_interrupt_status acc.1 c then
    (unforce_interrupt (clear_interrupt acc.1 c) c,
      acc.2 ++ (if acc.1.handler then [IrqEvent.fired c] else []) ++
        [IrqEvent.clear_intr c, IrqEvent.unforce c])
  else acc

/-- `Pwm::handle_interrupt`: processes channels 0..7 in ascending order. -/
def handle_interrupt (st : IrqState) : IrqState × List IrqEvent :=
  [0, 1, 2, 3, 4, 5, 6, 7].foldl handle_step (st, [])

end Pwm

/-- Specification of the fuelled floor-log2. -/
theorem log2Aux_spec : ∀ k n, 1 ≤ n → n ≤ k →
    2 ^ log2Aux k n ≤ n ∧ n < 2 ^ (log2Aux k n + 1) := by
  intro k
  induction k with
  | zero => intro n h1 h2; omega
  | succ k ih =>
    intro n h1 h2
    rw [log2Aux]
    split
    · rename_i h2n
      have hrec := ih (n / 2) (by omega) (by omega)
      constructor
      · calc 2 ^ (log2Aux k (n / 2) + 1) = 2 ^ log2Aux k (n / 2) * 2 := by rw [pow_succ]
          _ ≤ n / 2 * 2 := Nat.mul_le_mul_right 2 hrec.1
          _ ≤ n := by omega
      · calc n < (n / 2 + 1) * 2 := by omega
          _ ≤ 2 ^ (log2Aux k (n / 2) + 1) * 2 := Nat.mul_le_mul_right 2 (by omega)
          _ = 2 ^ (log2Aux k (n / 2) + 1 + 1) := by rw [← pow_succ]
    · rename_i h2n
      have hn1 : n = 1 := by omega
      subst hn1
      simp [log2Aux]

/-- `flog2` really is the floor of the base-2 logarithm on positives. -/
theorem flog2_spec (n : Nat) (h : 1 ≤ n) :
    2 ^ flog2 n ≤ n ∧ n < 2 ^ (flog2 n + 1) :=
  log2Aux_spec n n h le_rfl

/-- `rne n d` is within half of `d` of the exact quotient:
`|rne n d - n/d| ≤ 1/2`, stated multiplied out over `Nat`. -/
theorem rne_bounds (n d : Nat) (hd : 0 < d) :
    2 * n ≤ 2 * (d * rne n d) + d ∧ 2 * (d * rne n d) ≤ 2 * n + d := by
  have h2 : d * (n / d) + n % d = n := Nat.div_add_mod n d
  have h1 : n % d < d := Nat.mod_lt _ hd
  unfold rne
  simp only
  generalize hq : n / d = q at *
  generalize hr : n % d = r at *
  split_ifs with hA hB hC <;> refine ⟨?_, ?_⟩ <;> nlinarith [h2, h1]

/-- Naturals below `2^24` are exactly representable in binary32. -/
theorem natToF32_small (n : Nat) (h : n < 2 ^ 24) : natToF32 n = n := by
  unfold natToF32
  rw [if_pos h]

/-- The exponent of the rounded quotient is the floor-log of the exact
quotient, except that a rounding carry raises it by one (with significand
`2^23`, coming from a pre-normalisation significand of `2^24`). -/
theorem fdivSig_exp_cases (T F : Nat) :
    (fdivSig T F).2 = flog2 (T / F) ∨
    ((fdivSig T F).2 = flog2 (T / F) + 1 ∧ (fdivSig T F).1 = 2 ^ 23 ∧
      (flog2 (T / F) ≤ 23 → rne (T * 2 ^ (23 - flog2 (T / F))) F = 2 ^ 24)) := by
  unfold fdivSig
  split_ifs with h1 h2 h3 <;> simp [*]

/-- If the exact quotient `T / F` is at least 256, the rounded binary32
quotient is at least 256: its exponent is at least 8. -/
theorem fdivSig_exp_ge_8 (T F : Nat) (hF : 0 < F) (h256 : 256 * F ≤ T) :
    8 ≤ (fdivSig T F).2 := by
  have hdiv : 256 ≤ T / F := (Nat.le_div_iff_mul_le hF).2 h256
  have hspec := flog2_spec (T / F) (by omega)
  have he0 : 8 ≤ flog2 (T / F) := by
    by_contra hlt
    push_neg at hlt
    have hle : (2 : Nat) ^ (flog2 (T / F) + 1) ≤ 2 ^ 8 :=
      Nat.pow_le_pow_right (by norm_num) (by omega)
    have := hspec.2
    norm_num at hle
    omega
  unfold fdivSig
  split_ifs <;> simp <;> omega

/-- Accuracy bundle for the rounded division, for exact quotients below
`2^19`: the significand is normalised (`2^23 ≤ s`), and
`V = s / 2^(19-e)` — which is `⌊16 * divider⌋` — satisfies
`|V/16 - T/F| ≤ 1/16`, stated multiplied out over `Nat` as
`V*F ≤ 16*T + F` and `16*T ≤ V*F + F`. -/
theorem fdivSig_main (T F : Nat) (hF : 0 < F) (hFT : F ≤ T)
    (hq : T / F < 2 ^ 19) :
    2 ^ 23 ≤ (fdivSig T F).1 ∧
    ((fdivSig T F).1 / 2 ^ (19 - (fdivSig T F).2)) * F ≤ 16 * T + F ∧
    16 * T ≤ ((fdivSig T F).1 / 2 ^ (19 - (fdivSig T F).2)) * F + F := by
  have hq1 : 1 ≤ T / F := (Nat.one_le_div_iff hF).2 hFT
  have hspec := flog2_spec (T / F) hq1
  set e0 := flog2 (T / F) with he0def
  have he018 : e0 ≤ 18 := by
    by_contra hgt
    push_neg at hgt
    have h19 : (2 : Nat) ^ 19 ≤ 2 ^ e0 := Nat.pow_le_pow_right (by norm_num) (by omega)
    omega
  have hTlow : 2 ^ e0 * F ≤ T := (Nat.le_div_iff_mul_le hF).1 hspec.1
  have hThigh : T < 2 ^ (e0 + 1) * F := (Nat.div_lt_iff_lt_mul hF).1 hspec.2
  -- abbreviate the two power terms as plain variables
  set Q := (2 : Nat) ^ e0 with hQdef
  set P := (2 : Nat) ^ (19 - e0) with hPdef
  have hPpos : 0 < P := by positivity
  have h16PQ : 16 * P * Q = 2 ^ 23 := by
    rw [hPdef, hQdef]
    have : (16 : Nat) = 2 ^ 4 := by norm_num
    rw [this, ← pow_add, ← pow_add]
    congr 1
    omega
  have h23P : (2 : Nat) ^ (23 - e0) = 16 * P := by
    rw [hPdef]
    have : (16 : Nat) = 2 ^ 4 := by norm_num
    rw [this, ← pow_add]
    congr 1
    omega
  -- the scaled numerator and its rounded significand
  have hrb := rne_bounds (T * 2 ^ (23 - e0)) F hF
  set s0 := rne (T * 2 ^ (23 - e0)) F with hs0def
  rw [h23P] at hrb
  have hmlow : F * (16 * P * Q) ≤ T * (16 * P) := by
    calc F * (16 * P * Q) = Q * F * (16 * P) := by ring
      _ ≤ T * (16 * P) := Nat.mul_le_mul_right _ (by rw [mul_comm Q F] at hTlow ⊢; exact (mul_comm F Q ▸ hTlow))
  have hmhigh : T * (16 * P) < F * (2 * Q) * (16 * P) := by
    have h2Q : 2 ^ (e0 + 1) = 2 * Q := by rw [hQdef, pow_succ]; ring
    rw [h2Q] at hThigh
    have : T < F * (2 * Q) := by rw [mul_comm] at hThigh; exact hThigh
    exact Nat.mul_lt_mul_right (by positivity) |>.2 this
  -- significand bounds
  have hs0low : 2 ^ 23 ≤ s0 := by
    have h1 : F * 2 ^ 24 ≤ 2 * (F * s0) + F := by
      calc F * 2 ^ 24 = 2 * (F * (16 * P * Q)) := by rw [h16PQ]; ring
        _ ≤ 2 * (T * (16 * P)) := by exact Nat.mul_le_mul_left 2 hmlow
        _ ≤ 2 * (F * s0) + F := hrb.1
    have h2 : F * 2 ^ 24 ≤ F * (2 * s0 + 1) := by
      calc F * 2 ^ 24 ≤ 2 * (F * s0) + F := h1
        _ = F * (2 * s0 + 1) := by ring
    have h3 : 2 ^ 24 ≤ 2 * s0 + 1 := Nat.le_of_mul_le_mul_left h2 hF
    omega
  have hs0high : s0 ≤ 2 ^ 24 := by
    have h1 : 2 * (F * s0) ≤ F * (2 * (2 * Q) * (16 * P)) + F := by
      calc 2 * (F * s0) ≤ 2 * (T * (16 * P)) + F := hrb.2
        _ ≤ 2 * (F * (2 * Q) * (16 * P)) + F := by
            have := Nat.mul_le_mul_left 2 (Nat.le_of_lt hmhigh)
            omega
        _ = F * (2 * (2 * Q) * (16 * P)) + F := by ring
    have h2 : F * (2 * s0) ≤ F * (2 * (2 * Q) * (16 * P) + 1) := by
      calc F * (2 * s0) = 2 * (F * s0) := by ring
        _ ≤ F * (2 * (2 * Q) * (16 * P)) + F := h1
        _ = F * (2 * (2 * Q) * (16 * P) + 1) := by ring
    have h3 : 2 * s0 ≤ 2 * (2 * Q) * (16 * P) + 1 := Nat.le_of_mul_le_mul_left h2 hF
    have h4 : 2 * (2 * Q) * (16 * P) = 2 * 2 ^ 24 := by
      calc 2 * (2 * Q) * (16 * P) = 4 * (16 * P * Q) := by ring
        _ = 4 * 2 ^ 23 := by rw [h16PQ]
        _ = 2 * 2 ^ 24 := by norm_num
    omega
  -- the quantity V for the pre-normalised pair
  set V := s0 / P with hVdef
  have hVeq : P * V + s0 % P = s0 := Nat.div_add_mod s0 P
  have hVrem : s0 % P < P := Nat.mod_lt _ hPpos
  -- (A)  V * F ≤ 16 * T + F
  have hA : V * F ≤ 16 * T + F := by
    by_contra hcon
    push_neg at hcon
    have hcon' : 16 * T + F + 1 ≤ V * F := hcon
    have h1 : (2 * P) * (16 * T + F + 1) ≤ (2 * P) * (V * F) :=
      mul_le_mul_left' hcon' _
    have h2 : (2 * P) * (V * F) ≤ 2 * (T * (16 * P)) + F := by
      have hPV : P * V ≤ s0 := Nat.le.intro hVeq
      calc (2 * P) * (V * F) = 2 * (F * (P * V)) := by ring
        _ ≤ 2 * (F * s0) := by
            exact Nat.mul_le_mul_left 2 (mul_le_mul_left' hPV F)
        _ ≤ 2 * (T * (16 * P)) + F := hrb.2
    have h3 : (2 * P) * (16 * T + F + 1) = 2 * (T * (16 * P)) + (2 * P) * F + 2 * P := by
      ring
    have h4 : (2 * P) * F + 2 * P ≤ F := by omega
    have h5 : F + 2 ≤ (2 * P) * F + 2 * P := by nlinarith [hPpos, hF]
    omega
  -- (B)  16 * T ≤ V * F + F
  have hB : 16 * T ≤ V * F + F := by
    have h8 : s0 + 1 ≤ P * V + P := by
      have := hVeq
      omega
    have h9 : (2 * F) * (s0 + 1) ≤ (2 * F) * (P * V + P) := mul_le_mul_left' h8 _
    have h10 : (2 * P) * (16 * T) ≤ (2 * P) * (V * F + F) := by
      calc (2 * P) * (16 * T) = 2 * (T * (16 * P)) := by ring
        _ ≤ 2 * (F * s0) + F := hrb.1
        _ ≤ (2 * F) * (s0 + 1) := by ring_nf; omega
        _ ≤ (2 * F) * (P * V + P) := h9
        _ = (2 * P) * (V * F + F) := by ring
    exact Nat.le_of_mul_le_mul_left h10 (by positivity)
  -- transfer to the normalised result of fdivSig
  have hVfinal : (fdivSig T F).1 / 2 ^ (19 - (fdivSig T F).2) = V ∧
      2 ^ 23 ≤ (fdivSig T F).1 := by
    unfold fdivSig
    rw [← he0def, if_pos (show e0 ≤ 23 by omega), ← hs0def]
    split_ifs with hcarry
    · refine ⟨?_, by simp⟩
      simp only
      have hexp : 19 - (e0 + 1) = 18 - e0 := by omega
      rw [hexp]
      have hL : (2 : Nat) ^ 23 / 2 ^ (18 - e0) = 2 ^ (5 + e0) := by
        rw [Nat.pow_div (by omega) (by norm_num)]
        congr 1
        omega
      have hR : V = 2 ^ (5 + e0) := by
        rw [hVdef, hcarry, hPdef, Nat.pow_div (by omega) (by norm_num)]
        congr 1
        omega
      rw [hL, hR]
    · exact ⟨rfl, by simpa using hs0low⟩
  rw [hVfinal.1]
  exact ⟨hVfinal.2, hA, hB⟩

/-- Reduction of the planner to its low-frequency branch: with a 32-bit
clock value, a positive requested frequency at most the threshold, the two
`as f32` conversions are exact and the planner is `computeDivParts` on the
threshold and the frequency. -/
theorem compute_low (mf f : Nat) (hclk : mf < 2 ^ 32) (hpos : 0 < f)
    (hle : f ≤ mf / get_maximum_duty_cycle) :
    compute_top_int_frac mf f =
      computeDivParts (mf / get_maximum_duty_cycle) f := by
  have hth : mf / get_maximum_duty_cycle < 2 ^ 24 := by
    simp only [get_maximum_duty_cycle] at *
    omega
  have hf : f < 2 ^ 24 := by omega
  unfold compute_top_int_frac
  rw [if_neg (by omega), if_neg (by omega), natToF32_small _ hth, natToF32_small _ hf]

/-- Whenever the planner succeeds with a positive requested frequency and a
32-bit clock value, the divider parts it returns pass the
`set_divider_int_frac` guard: nonzero integer part, fractional part at most
15. -/
theorem compute_top_int_frac_parts (mf f t i fr : Nat) (hclk : mf < 2 ^ 32)
    (hpos : 0 < f) (h : compute_top_int_frac mf f = some (t, i, fr)) :
    1 ≤ i ∧ fr ≤ 15 := by
  by_cases hbr : mf / get_maximum_duty_cycle < f
  · unfold compute_top_int_frac at h
    rw [if_pos hbr] at h
    simp only [Option.some.injEq, Prod.mk.injEq] at h
    omega
  · push_neg at hbr
    rw [compute_low mf f hclk hpos hbr] at h
    unfold computeDivParts at h
    by_cases h8 : 8 ≤ (fdivSig (mf / get_maximum_duty_cycle) f).2
    · rw [if_pos h8] at h
      exact absurd h (by simp)
    · rw [if_neg h8] at h
      push_neg at h8
      simp only [Option.some.injEq, Prod.mk.injEq] at h
      obtain ⟨ht, hi, hfr⟩ := h
      have hth16 : mf / get_maximum_duty_cycle < 2 ^ 16 := by
        simp only [get_maximum_duty_cycle] at *
        omega
      have hq19 : mf / get_maximum_duty_cycle / f < 2 ^ 19 := by
        have := Nat.div_le_self (mf / get_maximum_duty_cycle) f
        omega
      have hmain := fdivSig_main (mf / get_maximum_duty_cycle) f hpos hbr hq19
      constructor
      · rw [← hi]
        have hpow : (2 : Nat) ^ (23 - (fdivSig (mf / get_maximum_duty_cycle) f).2) ≤
            (fdivSig (mf / get_maximum_duty_cycle) f).1 := by
          calc (2 : Nat) ^ (23 - (fdivSig (mf / get_maximum_duty_cycle) f).2) ≤ 2 ^ 23 :=
                Nat.pow_le_pow_right (by norm_num) (by omega)
            _ ≤ (fdivSig (mf / get_maximum_duty_cycle) f).1 := hmain.1
        exact (Nat.one_le_div_iff (by positivity)).2 hpow
      · rw [← hfr]
        have hdd : (fdivSig (mf / get_maximum_duty_cycle) f).1 /
            2 ^ (23 - (fdivSig (mf / get_maximum_duty_cycle) f).2) =
            (fdivSig (mf / get_maximum_duty_cycle) f).1 /
              2 ^ (19 - (fdivSig (mf / get_maximum_duty_cycle) f).2) / 16 := by
          rw [Nat.div_div_eq_div_mul]
          congr 1
          have h16 : (16 : Nat) = 2 ^ 4 := by norm_num
          rw [h16, ← pow_add]
          congr 1
          omega
        rw [hdd]
        generalize (fdivSig (mf / get_maximum_duty_cycle) f).1 /
          2 ^ (19 - (fdivSig (mf / get_maximum_duty_cycle) f).2) = V
        omega

/-- Claim C1: the compare-value computation inside `start` fails exactly at
full-scale duty with `top = 65535`; at full-scale duty with a smaller top it
returns `top + 1`; otherwise it returns
`⌊(top + 1) * duty_cycle / 65536⌋`. -/
theorem claim_C1 (top duty_cycle : Nat) (htop : top ≤ 65535)
    (hduty : duty_cycle ≤ 65536) :
    (duty_cycle = 65536 → top = 65535 → solve_compare top duty_cycle = none) ∧
    (duty_cycle = 65536 → top < 65535 →
      solve_compare top duty_cycle = some (top + 1)) ∧
    (duty_cycle ≠ 65536 →
      solve_compare top duty_cycle = some ((top + 1) * duty_cycle / 65536)) := by
  unfold solve_compare get_maximum_duty_cycle
  refine ⟨?_, ?_, ?_⟩
  · intro h1 h2
    subst h1
    subst h2
    norm_num
  · intro h1 h2
    subst h1
    rw [if_pos rfl, if_neg (by omega)]
    congr 1
    have : (2 : Nat) ^ 16 = 65536 := by norm_num
    omega
  · intro h1
    rw [if_neg (by omega)]
    congr 1
    have hlt : (top + 1) * duty_cycle < 2 ^ 32 := by
      calc (top + 1) * duty_cycle ≤ 65536 * 65535 :=
            Nat.mul_le_mul (by omega) (by omega)
        _ < 2 ^ 32 := by norm_num
    rw [Nat.mod_eq_of_lt hlt]
    have hres : (top + 1) * duty_cycle / (65535 + 1) < 2 ^ 16 := by
      rw [Nat.div_lt_iff_lt_mul (by norm_num)]
      calc (top + 1) * duty_cycle ≤ (top + 1) * 65535 :=
            Nat.mul_le_mul_left _ (by omega)
        _ < 2 ^ 16 * (65535 + 1) := by
            have : top + 1 ≤ 65536 := by omega
            nlinarith
    rw [Nat.mod_eq_of_lt hres]

/-- Witness for C1 at the spec's end-to-end values: failure at
`(top, duty) = (65535, 65536)`, `top + 1 = 4` at `(3, 65536)`, and
`⌊4 * 49152 / 65536⌋ = 3` at `(3, 49152)`. -/
theorem claim_C1_witness :
    solve_compare 65535 65536 = none ∧
    solve_compare 3 65536 = some 4 ∧
    solve_compare 3 49152 = some 3 :=
  ⟨(claim_C1 65535 65536 (by norm_num) (by norm_num)).1 rfl rfl,
   (claim_C1 3 65536 (by norm_num) (by norm_num)).2.1 rfl (by norm_num),
   (claim_C1 3 49152 (by norm_num) (by norm_num)).2.2 (by norm_num)⟩

/-- Claim C2: above the threshold frequency and up to the clock frequency,
the planner returns `top = max_freq / freq - 1` and divider `(1, 0)`. -/
theorem claim_C2 (max_freq_hz frequency_hz : Nat) (hpos : 0 < max_freq_hz)
    (hlo : max_freq_hz / get_maximum_duty_cycle < frequency_hz)
    (hhi : frequency_hz ≤ max_freq_hz) :
    compute_top_int_frac max_freq_hz frequency_hz =
      some (max_freq_hz / frequency_hz - 1, 1, 0) := by
  unfold compute_top_int_frac
  rw [if_pos hlo]
  have hfpos : 0 < frequency_hz := Nat.lt_of_le_of_lt (Nat.zero_le _) hlo
  have h1 : 1 ≤ max_freq_hz / frequency_hz := (Nat.one_le_div_iff hfpos).2 hhi
  have h2 : max_freq_hz / frequency_hz < 65536 := by
    rw [Nat.div_lt_iff_lt_mul hfpos]
    have h3 := (Nat.div_lt_iff_lt_mul
      (show 0 < get_maximum_duty_cycle by norm_num [get_maximum_duty_cycle])).1 hlo
    simp only [get_maximum_duty_cycle] at h3
    omega
  simp only [Option.some.injEq, Prod.mk.injEq, and_true]
  generalize hx : max_freq_hz / frequency_hz = x at h1 h2 ⊢
  omega

/-- Witness for C2: a 125 MHz clock at a quarter of the clock frequency
gives `top = 3`, divider `(1, 0)`. -/
theorem claim_C2_witness :
    compute_top_int_frac 125000000 31250000 = some (3, 1, 0) :=
  claim_C2 125000000 31250000 (by norm_num) (by norm_num [get_maximum_duty_cycle])
    (by norm_num)

/-- Claim C7: every physical pin index `p` maps to channel
`(p >> 1) mod 8` and sub-pin `p mod 2` (even pins to A, odd to B) — stated
unconditionally, so it covers all pins 0..29 including channel 7's pins 14
and 15 — and two valid pin indices that differ by 16 map to the identical
(channel, sub-pin) pair. -/
theorem claim_C7 (p : Nat) :
    channel_number_from_gpio p = p / 2 % 8 ∧
    (channel_pin_from_gpio p = ChannelPin.A ↔ p % 2 = 0) ∧
    (p < 30 → p + 16 < 30 →
      channel_number_from_gpio (p + 16) = channel_number_from_gpio p ∧
      channel_pin_from_gpio (p + 16) = channel_pin_from_gpio p) := by
  have hmap : ∀ q : Nat, channel_number_from_gpio q = q / 2 % 8 := by
    intro q
    unfold channel_number_from_gpio
    have h1 : q >>> 1 = q / 2 := Nat.shiftRight_one q
    have h2 := Nat.and_pow_two_sub_one_eq_mod (q / 2) 3
    norm_num at h2
    rw [h1, h2]
  have hpin : ∀ q : Nat,
      channel_pin_from_gpio q = if q % 2 = 0 then ChannelPin.A else ChannelPin.B := by
    intro q
    unfold channel_pin_from_gpio
    rw [Nat.and_one_is_mod]
  refine ⟨hmap p, ?_, ?_⟩
  · rw [hpin p]
    split_ifs with h
    · simp [h]
    · simp [h]
  · intro hp hp16
    constructor
    · rw [hmap, hmap]
      omega
    · rw [hpin, hpin]
      have hpar : (p + 16) % 2 = p % 2 := by omega
      rw [hpar]

/-- Witness for C7 at pin 5 (channel 2, sub-pin B; alias of pin 21),
discharging the validity hypotheses of the aliasing part. -/
theorem claim_C7_witness :
    channel_number_from_gpio 5 = 5 / 2 % 8 ∧
    (channel_pin_from_gpio 5 = ChannelPin.A ↔ 5 % 2 = 0) ∧
    (channel_number_from_gpio (5 + 16) = channel_number_from_gpio 5 ∧
      channel_pin_from_gpio (5 + 16) = channel_pin_from_gpio 5) :=
  ⟨(claim_C7 5).1, (claim_C7 5).2.1, (claim_C7 5).2.2 (by norm_num) (by norm_num)⟩

/-- Claim C5: whenever `start` returns an error, the enable bit of the
pin's channel keeps exactly the value it had before the call. -/
theorem claim_C5 (s : PwmState) (n : Fin 8) (pin : ChannelPin)
    (max_freq_hz frequency_hz duty_cycle : Nat) (e : ErrorCode)
    (herr : (Pwm.start_pwm_pin s n pin max_freq_hz frequency_hz duty_cycle).2.2
      = some e) :
    ((Pwm.start_pwm_pin s n pin max_freq_hz frequency_hz duty_cycle).1.channels n).en
      = (s.channels n).en := by
  cases hc : compute_top_int_frac max_freq_hz frequency_hz with
  | none => simp [Pwm.start_pwm_pin, hc]
  | some v =>
    obtain ⟨t, i, fr⟩ := v
    cases hs : solve_compare t duty_cycle with
    | none => simp [Pwm.start_pwm_pin, hc, hs]
    | some cv => simp [Pwm.start_pwm_pin, hc, hs] at herr

/-- Witness for C5: on a 125 MHz clock, `start` at the threshold frequency
1907 Hz with 100% duty fails (top is 65535), and the channel's enable bit
is unchanged. -/
theorem claim_C5_witness :
    ((Pwm.start_pwm_pin sampleState 4 ChannelPin.A 125000000 1907 65536).1.channels 4).en
      = (sampleState.channels 4).en :=
  claim_C5 sampleState 4 ChannelPin.A 125000000 1907 65536 ErrorCode.INVAL (by decide)

/-- Claim C10: whenever `start` returns an error, no channel register is
written at all — the write trace is empty, and top, divider, both compare
values, the counter and the enable bit of every channel keep their prior
values. -/
theorem claim_C10 (s : PwmState) (n m : Fin 8) (pin : ChannelPin)
    (max_freq_hz frequency_hz duty_cycle : Nat) (e : ErrorCode)
    (herr : (Pwm.start_pwm_pin s n pin max_freq_hz frequency_hz duty_cycle).2.2
      = some e) :
    (Pwm.start_pwm_pin s n pin max_freq_hz frequency_hz duty_cycle).2.1 = [] ∧
    ((Pwm.start_pwm_pin s n pin max_freq_hz frequency_hz duty_cycle).1.channels m).top
      = (s.channels m).top ∧
    ((Pwm.start_pwm_pin s n pin max_freq_hz frequency_hz duty_cycle).1.channels m).div_int
      = (s.channels m).div_int ∧
    ((Pwm.start_pwm_pin s n pin max_freq_hz frequency_hz duty_cycle).1.channels m).div_frac
      = (s.channels m).div_frac ∧
    ((Pwm.start_pwm_pin s n pin max_freq_hz frequency_hz duty_cycle).1.channels m).cc_a
      = (s.channels m).cc_a ∧
    ((Pwm.start_pwm_pin s n pin max_freq_hz frequency_hz duty_cycle).1.channels m).cc_b
      = (s.channels m).cc_b ∧
    ((Pwm.start_pwm_pin s n pin max_freq_hz frequency_hz duty_cycle).1.channels m).ctr
      = (s.channels m).ctr ∧
    ((Pwm.start_pwm_pin s n pin max_freq_hz frequency_hz duty_cycle).1.channels m).en
      = (s.channels m).en := by
  have hkey : (Pwm.start_pwm_pin s n pin max_freq_hz frequency_hz duty_cycle).1 = s ∧
      (Pwm.start_pwm_pin s n pin max_freq_hz frequency_hz duty_cycle).2.1 = [] := by
    cases hc : compute_top_int_frac max_freq_hz frequency_hz with
    | none => constructor <;> simp [Pwm.start_pwm_pin, hc]
    | some v =>
      obtain ⟨t, i, fr⟩ := v
      cases hs : solve_compare t duty_cycle with
      | none => constructor <;> simp [Pwm.start_pwm_pin, hc, hs]
      | some cv => simp [Pwm.start_pwm_pin, hc, hs] at herr
  rw [hkey.1]
  exact ⟨hkey.2, rfl, rfl, rfl, rfl, rfl, rfl, rfl⟩

/-- Witness for C10: a 7 Hz request on the 125 MHz clock needs a divider of
about 272, so `start` fails and writes nothing. -/
theorem claim_C10_witness :
    (Pwm.start_pwm_pin sampleState 1 ChannelPin.B 125000000 7 0).2.1 = [] ∧
    ((Pwm.start_pwm_pin sampleState 1 ChannelPin.B 125000000 7 0).1.channels 1).top
      = (sampleState.channels 1).top ∧
    ((Pwm.start_pwm_pin sampleState 1 ChannelPin.B 125000000 7 0).1.channels 1).div_int
      = (sampleState.channels 1).div_int ∧
    ((Pwm.start_pwm_pin sampleState 1 ChannelPin.B 125000000 7 0).1.channels 1).div_frac
      = (sampleState.channels 1).div_frac ∧
    ((Pwm.start_pwm_pin sampleState 1 ChannelPin.B 125000000 7 0).1.channels 1).cc_a
      = (sampleState.channels 1).cc_a ∧
    ((Pwm.start_pwm_pin sampleState 1 ChannelPin.B 125000000 7 0).1.channels 1).cc_b
      = (sampleState.channels 1).cc_b ∧
    ((Pwm.start_pwm_pin sampleState 1 ChannelPin.B 125000000 7 0).1.channels 1).ctr
      = (sampleState.channels 1).ctr ∧
    ((Pwm.start_pwm_pin sampleState 1 ChannelPin.B 125000000 7 0).1.channels 1).en
      = (sampleState.channels 1).en :=
  claim_C10 sampleState 1 1 ChannelPin.B 125000000 7 0 ErrorCode.INVAL (by decide)

/-- Claim C9: every successful `start` issues its channel register writes
in the fixed order TOP, DIV (twice: INT then FRAC fields), CC of the
sub-pin, and the enable bit last (with a positive requested frequency and
the 32-bit clock value, the divider-setter guard always passes, so the DIV
writes are really issued). -/
theorem claim_C9 (s : PwmState) (n : Fin 8) (pin : ChannelPin)
    (max_freq_hz frequency_hz duty_cycle : Nat)
    (hclk : max_freq_hz < 2 ^ 32) (hpos : 0 < frequency_hz)
    (hok : (Pwm.start_pwm_pin s n pin max_freq_hz frequency_hz duty_cycle).2.2
      = none) :
    (Pwm.start_pwm_pin s n pin max_freq_hz frequency_hz duty_cycle).2.1 =
      [RegWrite.top n, RegWrite.div n, RegWrite.div n,
       RegWrite.cc n pin, RegWrite.en n] := by
  cases hc : compute_top_int_frac max_freq_hz frequency_hz with
  | none => simp [Pwm.start_pwm_pin, hc] at hok
  | some v =>
    obtain ⟨t, i, fr⟩ := v
    have hparts := compute_top_int_frac_parts max_freq_hz frequency_hz t i fr hclk hpos hc
    cases hs : solve_compare t duty_cycle with
    | none => simp [Pwm.start_pwm_pin, hc, hs] at hok
    | some cv =>
      simp only [Pwm.start_pwm_pin, hc, hs]
      rw [Pwm.set_divider_int_frac, if_neg (by omega)]
      rfl

/-- Witness for C9: a successful start (31.25 MHz, 75% duty) writes TOP,
DIV, DIV, CC-A, EN in order. -/
theorem claim_C9_witness :
    (Pwm.start_pwm_pin sampleState 4 ChannelPin.A 125000000 31250000 49152).2.1 =
      [RegWrite.top 4, RegWrite.div 4, RegWrite.div 4,
       RegWrite.cc 4 ChannelPin.A, RegWrite.en 4] :=
  claim_C9 sampleState 4 ChannelPin.A 125000000 31250000 49152 (by norm_num)
    (by norm_num) (by decide)

/-- How `update_channel` acts on each channel. -/
theorem channels_update_channel (s : PwmState) (n : Fin 8)
    (f : ChannelState → ChannelState) (m : Fin 8) :
    (Pwm.update_channel s n f).channels m =
      if m = n then f (s.channels n) else s.channels m := by
  unfold Pwm.update_channel
  simp [Function.update_apply]

/-- The divider integer part after `set_divider_int_frac`: either untouched
or set to the (guard-checked, hence nonzero) new value. -/
theorem set_divider_int_frac_div_int (s : PwmState) (n : Fin 8) (i fr : Nat)
    (m : Fin 8) :
    (((Pwm.set_divider_int_frac s n i fr).1).channels m).div_int
        = (s.channels m).div_int ∨
      ((((Pwm.set_divider_int_frac s n i fr).1).channels m).div_int = i ∧ i ≠ 0) := by
  unfold Pwm.set_divider_int_frac
  split_ifs with hbad
  · left
    rfl
  · push_neg at hbad
    simp only [channels_update_channel]
    split_ifs with h
    · right
      exact ⟨rfl, hbad.1⟩
    · left
      rfl

/-- `div_int` through a field-preserving `update_channel`. -/
theorem div_int_update (s : PwmState) (n : Fin 8) (f : ChannelState → ChannelState)
    (m : Fin 8) (hf : ∀ c, (f c).div_int = c.div_int) :
    ((Pwm.update_channel s n f).channels m).div_int = (s.channels m).div_int := by
  rw [channels_update_channel]
  split_ifs with h
  · rw [hf, h]
  · rfl

theorem set_enabled_div_int (s : PwmState) (n : Fin 8) (b : Bool) (m : Fin 8) :
    ((Pwm.set_enabled s n b).channels m).div_int = (s.channels m).div_int := by
  unfold Pwm.set_enabled
  exact div_int_update s n _ m (fun c => rfl)

theorem set_ph_correct_div_int (s : PwmState) (n : Fin 8) (b : Bool) (m : Fin 8) :
    ((Pwm.set_ph_correct s n b).channels m).div_int = (s.channels m).div_int := by
  unfold Pwm.set_ph_correct
  exact div_int_update s n _ m (fun c => rfl)

theorem set_invert_polarity_div_int (s : PwmState) (n : Fin 8) (ai bi : Bool)
    (m : Fin 8) :
    ((Pwm.set_invert_polarity s n ai bi).channels m).div_int
      = (s.channels m).div_int := by
  unfold Pwm.set_invert_polarity
  have h1 := div_int_update (Pwm.update_channel s n fun c => { c with a_inv := ai }) n
    (fun c => { c with b_inv := bi }) m (fun c => rfl)
  have h2 := div_int_update s n (fun c => { c with a_inv := ai }) m (fun c => rfl)
  rw [h1, h2]

theorem set_div_mode_div_int (s : PwmState) (n : Fin 8) (d : DivMode) (m : Fin 8) :
    ((Pwm.set_div_mode s n d).channels m).div_int = (s.channels m).div_int := by
  unfold Pwm.set_div_mode
  exact div_int_update s n _ m (fun c => rfl)

theorem set_compare_value_a_div_int (s : PwmState) (n : Fin 8) (v : Nat) (m : Fin 8) :
    ((Pwm.set_compare_value_a s n v).channels m).div_int = (s.channels m).div_int := by
  unfold Pwm.set_compare_value_a
  exact div_int_update s n _ m (fun c => rfl)

theorem set_compare_value_b_div_int (s : PwmState) (n : Fin 8) (v : Nat) (m : Fin 8) :
    ((Pwm.set_compare_value_b s n v).channels m).div_int = (s.channels m).div_int := by
  unfold Pwm.set_compare_value_b
  exact div_int_update s n _ m (fun c => rfl)

theorem set_top_div_int (s : PwmState) (n : Fin 8) (v : Nat) (m : Fin 8) :
    ((Pwm.set_top s n v).channels m).div_int = (s.channels m).div_int := by
  unfold Pwm.set_top
  exact div_int_update s n _ m (fun c => rfl)

theorem set_counter_div_int (s : PwmState) (n : Fin 8) (v : Nat) (m : Fin 8) :
    ((Pwm.set_counter s n v).channels m).div_int = (s.channels m).div_int := by
  unfold Pwm.set_counter
  exact div_int_update s n _ m (fun c => rfl)

theorem phase_shift_div_int (s : PwmState) (n : Fin 8) (v : Nat) (m : Fin 8) :
    ((Pwm.phase_shift s n v).channels m).div_int = (s.channels m).div_int := by
  unfold Pwm.phase_shift
  exact div_int_update s n _ m (fun c => rfl)

theorem set_mask_enabled_div_int (s : PwmState) (mask : Nat) (m : Fin 8) :
    ((Pwm.set_mask_enabled s mask).channels m).div_int = (s.channels m).div_int := rfl

/-- `div_int` after `configure_channel`: the configuration's (guarded)
divider integer part on the target channel, the old value elsewhere. -/
theorem configure_channel_div_int (s : PwmState) (n : Fin 8)
    (cfg : PwmChannelConfiguration) (m : Fin 8)
    (hInv : (s.channels m).div_int ≠ 0) :
    ((Pwm.configure_channel s n cfg).channels m).div_int ≠ 0 := by
  unfold Pwm.configure_channel
  simp only [set_enabled_div_int, set_top_div_int, set_compare_value_b_div_int,
    set_compare_value_a_div_int]
  rcases set_divider_int_frac_div_int
      (Pwm.set_div_mode (Pwm.set_invert_polarity (Pwm.set_ph_correct s n cfg.ph_correct)
        n cfg.a_inv cfg.b_inv) n cfg.divmode) n cfg.int cfg.frac m with h | ⟨h, hi⟩
  · rw [h, set_div_mode_div_int, set_invert_polarity_div_int, set_ph_correct_div_int]
    exact hInv
  · rw [h]
    exact hi

/-- Every driver operation preserves "the divider integer part is nonzero
on every channel". -/
theorem applyOp_div_int (s : PwmState) (op : PwmOp)
    (hInv : ∀ m, (s.channels m).div_int ≠ 0) :
    ∀ m, ((applyOp s op).channels m).div_int ≠ 0 := by
  intro m
  cases op with
  | set_enabled n b =>
    show ((Pwm.set_enabled s n b).channels m).div_int ≠ 0
    rw [set_enabled_div_int]
    exact hInv m
  | set_mask_enabled mask =>
    exact hInv m
  | set_ph_correct n b =>
    show ((Pwm.set_ph_correct s n b).channels m).div_int ≠ 0
    rw [set_ph_correct_div_int]
    exact hInv m
  | set_invert_polarity n ai bi =>
    show ((Pwm.set_invert_polarity s n ai bi).channels m).div_int ≠ 0
    rw [set_invert_polarity_div_int]
    exact hInv m
  | set_div_mode n d =>
    show ((Pwm.set_div_mode s n d).channels m).div_int ≠ 0
    rw [set_div_mode_div_int]
    exact hInv m
  | set_divider_int_frac n i fr =>
    show (((Pwm.set_divider_int_frac s n i fr).1).channels m).div_int ≠ 0
    rcases set_divider_int_frac_div_int s n i fr m with h | ⟨h, hi⟩
    · rw [h]
      exact hInv m
    · rw [h]
      exact hi
  | set_compare_value_a n v =>
    show ((Pwm.set_compare_value_a s n v).channels m).div_int ≠ 0
    rw [set_compare_value_a_div_int]
    exact hInv m
  | set_compare_value_b n v =>
    show ((Pwm.set_compare_value_b s n v).channels m).div_int ≠ 0
    rw [set_compare_value_b_div_int]
    exact hInv m
  | set_compare_values_a_and_b n va vb =>
    show ((Pwm.set_compare_values_a_and_b s n va vb).channels m).div_int ≠ 0
    unfold Pwm.set_compare_values_a_and_b
    rw [set_compare_value_b_div_int, set_compare_value_a_div_int]
    exact hInv m
  | set_top n v =>
    show ((Pwm.set_top s n v).channels m).div_int ≠ 0
    rw [set_top_div_int]
    exact hInv m
  | set_counter n v =>
    show ((Pwm.set_counter s n v).channels m).div_int ≠ 0
    rw [set_counter_div_int]
    exact hInv m
  | phase_shift n v =>
    show ((Pwm.phase_shift s n v).channels m).div_int ≠ 0
    rw [phase_shift_div_int]
    exact hInv m
  | configure_channel n cfg =>
    exact configure_channel_div_int s n cfg m (hInv m)
  | start n pin mf f d =>
    show (((Pwm.start_pwm_pin s n pin mf f d).1).channels m).div_int ≠ 0
    cases hc : compute_top_int_frac mf f with
    | none => simpa [Pwm.start_pwm_pin, hc] using hInv m
    | some v =>
      obtain ⟨t, i, fr⟩ := v
      cases hs : solve_compare t d with
      | none => simpa [Pwm.start_pwm_pin, hc, hs] using hInv m
      | some cv =>
        simp only [Pwm.start_pwm_pin, hc, hs]
        cases pin <;>
          simp only [set_enabled_div_int, set_compare_value_a_div_int,
            set_compare_value_b_div_int] <;>
        · rcases set_divider_int_frac_div_int (Pwm.set_top s n t) n i fr m
              with h | ⟨h, hi⟩
          · rw [h, set_top_div_int]
            exact hInv m
          · rw [h]
            exact hi
  | stop n =>
    show (((Pwm.stop_pwm_channel s n).1).channels m).div_int ≠ 0
    unfold Pwm.stop_pwm_channel
    rw [set_enabled_div_int]
    exact hInv m

/-- A sequence of driver operations preserves the nonzero-divider
invariant. -/
theorem applyOps_div_int (ops : List PwmOp) (s : PwmState)
    (hInv : ∀ m, (s.channels m).div_int ≠ 0) :
    ∀ m, ((applyOps s ops).channels m).div_int ≠ 0 := by
  induction ops generalizing s with
  | nil => exact hInv
  | cons op rest ih => exact ih (applyOp s op) (applyOp_div_int s op hInv)

/-- One `init` step (configure with the default configuration, then zero
the counter) sets the target channel's divider integer part to 1 and leaves
the other channels alone. -/
theorem init_step_div_int (s : PwmState) (n m : Fin 8) :
    ((Pwm.set_counter
        (Pwm.configure_channel s n PwmChannelConfiguration.default_config) n 0).channels
          m).div_int =
      if m = n then 1 else (s.channels m).div_int := by
  rw [set_counter_div_int]
  unfold Pwm.configure_channel
  simp only [PwmChannelConfiguration.default_config]
  rw [set_enabled_div_int, set_top_div_int, set_compare_value_b_div_int,
    set_compare_value_a_div_int]
  unfold Pwm.set_divider_int_frac
  rw [if_neg (by norm_num)]
  simp only [channels_update_channel]
  by_cases h : m = n
  · simp [h]
  · simp only [h, if_false]
    rw [set_div_mode_div_int, set_invert_polarity_div_int, set_ph_correct_div_int]

/-- After `init`, every channel's divider integer part is 1. -/
theorem init_div_int (s0 : PwmState) (m : Fin 8) :
    ((Pwm.init s0).channels m).div_int = 1 := by
  have key : ∀ (l : List (Fin 8)) (s : PwmState) (m : Fin 8),
      ((l.foldl
        (fun st n => Pwm.set_counter
          (Pwm.configure_channel st n PwmChannelConfiguration.default_config) n 0)
        s).channels m).div_int =
      if m ∈ l then 1 else (s.channels m).div_int := by
    intro l
    induction l with
    | nil => intro s m; simp
    | cons n rest ih =>
      intro s m
      simp only [List.foldl_cons, ih, init_step_div_int]
      by_cases hmem : m ∈ rest
      · simp [hmem]
      · by_cases heq : m = n
        · simp [hmem, heq]
        · simp [hmem, heq]
  unfold Pwm.init
  rw [key]
  simp [List.mem_finRange]

/-- Claim C8: a divider-setter call with integer part 0 or fractional part
above 15 is a no-op, both on the peripheral and on a configuration
snapshot, leaving the prior divider configuration intact; and starting from
the state `init` establishes (divider integer part 1 everywhere), no
sequence of driver operations reaches a state with a zero divider integer
part on any channel. -/
theorem claim_C8 (s s0 : PwmState) (n m : Fin 8) (i fr : Nat)
    (cfg : PwmChannelConfiguration) (ops : List PwmOp)
    (hbad : i = 0 ∨ 15 < fr) :
    (Pwm.set_divider_int_frac s n i fr).1 = s ∧
    (Pwm.set_divider_int_frac s n i fr).2 = [] ∧
    cfg.set_divider_int_frac i fr = cfg ∧
    ((applyOps (Pwm.init s0) ops).channels m).div_int ≠ 0 := by
  refine ⟨?_, ?_, ?_, ?_⟩
  · unfold Pwm.set_divider_int_frac
    rw [if_pos hbad]
  · unfold Pwm.set_divider_int_frac
    rw [if_pos hbad]
  · unfold PwmChannelConfiguration.set_divider_int_frac
    rw [if_pos hbad]
  · apply applyOps_div_int
    intro m1
    rw [init_div_int]
    norm_num

/-- Witness for C8: `set_divider_int_frac` with `int = 0` is a no-op on the
sample state and on the default configuration, and the empty operation
sequence after `init` has nonzero divider integer parts. -/
theorem claim_C8_witness :
    (Pwm.set_divider_int_frac sampleState 2 0 7).1 = sampleState ∧
    (Pwm.set_divider_int_frac sampleState 2 0 7).2 = [] ∧
    PwmChannelConfiguration.default_config.set_divider_int_frac 0 7 =
      PwmChannelConfiguration.default_config ∧
    ((applyOps (Pwm.init sampleState) []).channels 3).div_int ≠ 0 :=
  claim_C8 sampleState sampleState 2 3 0 7 PwmChannelConfiguration.default_config []
    (Or.inl rfl)

/-- Claim C6: starting from a state with no latched and no forced interrupt
(and any enable mask) with a handler registered, `force_interrupt c`
followed by `handle_interrupt` produces exactly the event trace
`fired c`, `clear_intr c`, `unforce c` — one handler call, for channel `c`
only, issued before the latched bit and then the force bit are cleared —
and afterwards the interrupt status bit of channel `c` reads clear. -/
theorem claim_C6 (st : IrqState) (c : Nat) (hc : c < 8)
    (hintr : st.intr = 0) (hintf : st.intf = 0) (hh : st.handler = true) :
    (Pwm.handle_interrupt (Pwm.force_interrupt st c)).2 =
      [IrqEvent.fired c, IrqEvent.clear_intr c, IrqEvent.unforce c] ∧
    Pwm.get_interrupt_status (Pwm.handle_interrupt (Pwm.force_interrupt st c)).1 c
      = false := by
  obtain ⟨intr, inte, intf, handler⟩ := st
  simp only at hintr hintf hh
  subst hintr
  subst hintf
  subst hh
  interval_cases c <;>
    simp +decide [Pwm.handle_interrupt, Pwm.handle_step, Pwm.get_interrupt_status,
      Pwm.force_interrupt, Pwm.clear_interrupt, Pwm.unforce_interrupt,
      Nat.zero_and, Nat.zero_or]

/-- Witness for C6: forcing channel 2 from the all-clear state with a
registered handler and dispatching yields exactly `fired 2` followed by the
two clears, leaving status bit 2 clear. -/
theorem claim_C6_witness :
    (Pwm.handle_interrupt
        (Pwm.force_interrupt { intr := 0, inte := 0, intf := 0, handler := true } 2)).2 =
      [IrqEvent.fired 2, IrqEvent.clear_intr 2, IrqEvent.unforce 2] ∧
    Pwm.get_interrupt_status
      (Pwm.handle_interrupt
        (Pwm.force_interrupt { intr := 0, inte := 0, intf := 0, handler := true } 2)).1 2
      = false :=
  claim_C6 { intr := 0, inte := 0, intf := 0, handler := true } 2 (by norm_num)
    rfl rfl rfl

/-- Claim C3: for every positive requested frequency at most the threshold
whose exact divider `threshold / frequency` is at least 256, the planner
fails, and `start` consequently returns an invalid-argument error without
touching any register.  (The exact-quotient hypothesis is stated multiplied
out: `256 * frequency_hz ≤ threshold`; the rounded `f32` divider the source
compares against `256.0` is then also at least 256, because conversion and
division are monotone and `256.0` is exactly representable.) -/
theorem claim_C3 (max_freq_hz frequency_hz duty_cycle : Nat) (s : PwmState)
    (n : Fin 8) (pin : ChannelPin) (hclk : max_freq_hz < 2 ^ 32)
    (hpos : 0 < frequency_hz)
    (hle : frequency_hz ≤ max_freq_hz / get_maximum_duty_cycle)
    (hdiv : 256 * frequency_hz ≤ max_freq_hz / get_maximum_duty_cycle) :
    compute_top_int_frac max_freq_hz frequency_hz = none ∧
    Pwm.start_pwm_pin s n pin max_freq_hz frequency_hz duty_cycle =
      (s, [], some ErrorCode.INVAL) := by
  have hcomp : compute_top_int_frac max_freq_hz frequency_hz = none := by
    rw [compute_low max_freq_hz frequency_hz hclk hpos hle]
    unfold computeDivParts
    rw [if_pos (fdivSig_exp_ge_8 _ _ hpos hdiv)]
  refine ⟨hcomp, ?_⟩
  simp [Pwm.start_pwm_pin, hcomp]

/-- Witness for C3: 7 Hz on the 125 MHz clock (threshold 1907 Hz, exact
divider about 272) fails, and `start` errors out leaving the state as is. -/
theorem claim_C3_witness :
    compute_top_int_frac 125000000 7 = none ∧
    Pwm.start_pwm_pin sampleState 2 ChannelPin.A 125000000 7 32768 =
      (sampleState, [], some ErrorCode.INVAL) :=
  claim_C3 125000000 7 32768 sampleState 2 ChannelPin.A (by norm_num) (by norm_num)
    (by norm_num [get_maximum_duty_cycle]) (by norm_num [get_maximum_duty_cycle])

/-- The divider integer part the planner returns (0 if it fails). -/
def planInt (max_freq_hz frequency_hz : Nat) : Nat :=
  ((compute_top_int_frac max_freq_hz frequency_hz).getD (0, 0, 0)).2.1

/-- The divider fractional part the planner returns (0 if it fails). -/
def planFrac (max_freq_hz frequency_hz : Nat) : Nat :=
  ((compute_top_int_frac max_freq_hz frequency_hz).getD (0, 0, 0)).2.2

/-- Claim C4 as stated is vacuous and misses the boundary: its frequency
interval `(system_clock/256, threshold]` is empty — the lower bound is
never below the upper bound, shown here at the spec's own 125 MHz clock —
while on the intended interval `(threshold/256, threshold]` the boundary
frequency 1907 Hz (which the stated interval excludes but the threshold
analysis covers) yields divider `(1, 0)`, i.e. exactly 1, not `> 1`. -/
theorem claim_C4_counterexample :
    125000000 / get_maximum_duty_cycle ≤ 125000000 / 256 ∧
    1907 ≤ 125000000 / get_maximum_duty_cycle ∧
    125000000 / get_maximum_duty_cycle / 256 < 1907 ∧
    compute_top_int_frac 125000000 1907 = some (65535, 1, 0) := by
  refine ⟨by norm_num [get_maximum_duty_cycle], by norm_num [get_maximum_duty_cycle],
    by norm_num [get_maximum_duty_cycle], by decide⟩

/-- Claim C4, amended: for all frequencies in `(threshold/256, threshold]`
(the stated lower bound `system_clock/256` is corrected to `threshold/256`,
without which the interval is empty), the planner succeeds with
`top = 65535` and a divider of at least 1 (not `> 1`: at the boundary
`frequency = threshold` the divider is exactly `(1, 0)`) whose value
`int + frac/16` is within `1/16` of `threshold / frequency`. -/
theorem claim_C4_amended (max_freq_hz frequency_hz : Nat)
    (hclk : max_freq_hz < 2 ^ 32)
    (hlo : max_freq_hz / get_maximum_duty_cycle / 256 < frequency_hz)
    (hhi : frequency_hz ≤ max_freq_hz / get_maximum_duty_cycle) :
    compute_top_int_frac max_freq_hz frequency_hz =
      some (65535, planInt max_freq_hz frequency_hz, planFrac max_freq_hz frequency_hz) ∧
    1 ≤ planInt max_freq_hz frequency_hz ∧
    |(planInt max_freq_hz frequency_hz : ℚ) +
        (planFrac max_freq_hz frequency_hz : ℚ) / 16 -
        ((max_freq_hz / get_maximum_duty_cycle : ℕ) : ℚ) / (frequency_hz : ℚ)|
      ≤ 1 / 16 := by
  have hpos : 0 < frequency_hz := Nat.lt_of_le_of_lt (Nat.zero_le _) hlo
  have hlow := compute_low max_freq_hz frequency_hz hclk hpos hhi
  have hth16 : max_freq_hz / get_maximum_duty_cycle < 2 ^ 16 := by
    simp only [get_maximum_duty_cycle]
    omega
  generalize hth : max_freq_hz / get_maximum_duty_cycle = th at hlo hhi hlow hth16 ⊢
  have hf16 : frequency_hz < 2 ^ 16 := by omega
  have ht256 : th < 256 * frequency_hz := by
    have h1 := (Nat.div_lt_iff_lt_mul (show (0:Nat) < 256 by norm_num)).1 hlo
    omega
  -- the flog2 of the exact quotient is below 8
  have hlogsmall : ¬ 8 ≤ flog2 (th / frequency_hz) := by
    intro h8
    have hspec := flog2_spec (th / frequency_hz) ((Nat.one_le_div_iff hpos).2 hhi)
    have hpow : (2:Nat) ^ 8 ≤ 2 ^ flog2 (th / frequency_hz) :=
      Nat.pow_le_pow_right (by norm_num) h8
    have h256 : 256 ≤ th / frequency_hz := by omega
    have := (Nat.le_div_iff_mul_le hpos).1 h256
    omega
  -- success: the rounded exponent is below 8 as well
  have hE : ¬ 8 ≤ (fdivSig th frequency_hz).2 := by
    intro h8
    rcases fdivSig_exp_cases th frequency_hz with hcase | ⟨hcase, hs, hcarry⟩
    · rw [hcase] at h8
      exact hlogsmall h8
    · rw [hcase] at h8
      have he0 : flog2 (th / frequency_hz) = 7 := by omega
      have hc2 := hcarry (by omega)
      rw [he0] at hc2
      have hrb := (rne_bounds (th * 2 ^ (23 - 7)) frequency_hz hpos).2
      rw [hc2] at hrb
      norm_num at hrb
      omega
  have hsome : compute_top_int_frac max_freq_hz frequency_hz =
      some (65535,
        (fdivSig th frequency_hz).1 / 2 ^ (23 - (fdivSig th frequency_hz).2),
        (fdivSig th frequency_hz).1 / 2 ^ (19 - (fdivSig th frequency_hz).2) -
          16 * ((fdivSig th frequency_hz).1 /
            2 ^ (23 - (fdivSig th frequency_hz).2))) := by
    rw [hlow]
    unfold computeDivParts
    rw [if_neg hE]
  have hpi : planInt max_freq_hz frequency_hz =
      (fdivSig th frequency_hz).1 / 2 ^ (23 - (fdivSig th frequency_hz).2) := by
    unfold planInt
    rw [hsome]
    rfl
  have hpf : planFrac max_freq_hz frequency_hz =
      (fdivSig th frequency_hz).1 / 2 ^ (19 - (fdivSig th frequency_hz).2) -
        16 * ((fdivSig th frequency_hz).1 /
          2 ^ (23 - (fdivSig th frequency_hz).2)) := by
    unfold planFrac
    rw [hsome]
    rfl
  have hq19 : th / frequency_hz < 2 ^ 19 := by
    have := Nat.div_le_self th frequency_hz
    omega
  have hmain := fdivSig_main th frequency_hz hpos hhi hq19
  -- name the parts
  have hdd : (fdivSig th frequency_hz).1 / 2 ^ (23 - (fdivSig th frequency_hz).2) =
      (fdivSig th frequency_hz).1 / 2 ^ (19 - (fdivSig th frequency_hz).2) / 16 := by
    rw [Nat.div_div_eq_div_mul]
    congr 1
    have h16 : (16 : Nat) = 2 ^ 4 := by norm_num
    rw [h16, ← pow_add]
    congr 1
    omega
  have honeI : 1 ≤ planInt max_freq_hz frequency_hz := by
    rw [hpi]
    have hpow : (2 : Nat) ^ (23 - (fdivSig th frequency_hz).2) ≤
        (fdivSig th frequency_hz).1 := by
      calc (2 : Nat) ^ (23 - (fdivSig th frequency_hz).2) ≤ 2 ^ 23 :=
            Nat.pow_le_pow_right (by norm_num) (by omega)
        _ ≤ (fdivSig th frequency_hz).1 := hmain.1
    exact (Nat.one_le_div_iff (by positivity)).2 hpow
  refine ⟨by rw [← hpf, ← hpi] at hsome; exact hsome, honeI, ?_⟩
  -- the accuracy bound, cleared of denominators over Nat by fdivSig_main
  rw [hpi, hpf, hdd]
  generalize hV : (fdivSig th frequency_hz).1 /
    2 ^ (19 - (fdivSig th frequency_hz).2) = V at hmain
  have hVi : 16 * (V / 16) + (V - 16 * (V / 16)) = V := by omega
  have hA : V * frequency_hz ≤ 16 * th + frequency_hz := hmain.2.1
  have hB : 16 * th ≤ V * frequency_hz + frequency_hz := hmain.2.2
  have hfQ : (0 : ℚ) < (frequency_hz : ℚ) := by exact_mod_cast hpos
  have hVQ : ((V / 16 : ℕ) : ℚ) + ((V - 16 * (V / 16) : ℕ) : ℚ) / 16 = (V : ℚ) / 16 := by
    have h1 : ((16 * (V / 16) + (V - 16 * (V / 16)) : ℕ) : ℚ) = (V : ℚ) := by
      exact_mod_cast congrArg (Nat.cast : ℕ → ℚ) hVi
    push_cast at h1 ⊢
    linarith
  rw [hVQ]
  have hAQ : (V : ℚ) * frequency_hz ≤ 16 * th + frequency_hz := by exact_mod_cast hA
  have hBQ : (16 : ℚ) * th ≤ V * frequency_hz + frequency_hz := by exact_mod_cast hB
  have hrw : (V : ℚ) / 16 - (th : ℚ) / frequency_hz =
      ((V : ℚ) * frequency_hz - 16 * th) / (16 * frequency_hz) := by
    field_simp
  rw [hrw, abs_div, abs_of_pos (by positivity : (0 : ℚ) < 16 * (frequency_hz : ℚ))]
  rw [div_le_div_iff (by positivity) (by norm_num : (0 : ℚ) < 16)]
  have hkey : |(V : ℚ) * frequency_hz - 16 * th| ≤ (frequency_hz : ℚ) := by
    rw [abs_le]
    constructor
    · linarith
    · linarith
  nlinarith [hkey, hfQ]

/-- Witness for the amended C4: 953 Hz on the 125 MHz clock (threshold
1907 Hz): the planner succeeds with top 65535 and a divider within 1/16 of
1907/953. -/
theorem claim_C4_amended_witness :
    compute_top_int_frac 125000000 953 =
      some (65535, planInt 125000000 953, planFrac 125000000 953) ∧
    1 ≤ planInt 125000000 953 ∧
    |(planInt 125000000 953 : ℚ) + (planFrac 125000000 953 : ℚ) / 16 -
        ((125000000 / get_maximum_duty_cycle : ℕ) : ℚ) / (953 : ℚ)| ≤ 1 / 16 :=
  claim_C4_amended 125000000 953 (by norm_num)
    (by norm_num [get_maximum_duty_cycle]) (by norm_num [get_maximum_duty_cycle])
